import Mathlib

/-!
Verification of the connect4 state-space explorer (src/tree.rs, src/main.rs).

The Rust code is shallowly embedded: `Vec<Vec<Player>>` grids become
`List (List Player)`, the `HashMap<Board, StateIndex>` transposition table
(whose `Hash`/`Eq` are defined on `Board::canonical`) becomes an association
list looked up modulo `canonical`, arena indices (`StateIndex`) become `Nat`,
and the recursive explorer / pruners carry an explicit fuel argument where the
Rust recursion is bounded only by the game itself.
-/

namespace Connect4

/-- Board dimensions, `BOARD_SIZE: (usize, usize) = (7, 6)` in tree.rs. -/
def BOARD_W : Nat := 7

/-- Board height, second component of `BOARD_SIZE`. -/
def BOARD_H : Nat := 6

/-- `enum Player { Red, Yellow, Empty }` (tree.rs). -/
inductive Player where
  | Red
  | Yellow
  | Empty
deriving DecidableEq, Repr

/-- `Player::flip`.  The Rust source panics on `Empty` ("Turn is invalid");
we make the function total by mapping `Empty` to itself, and every theorem
that depends on real executions carries the hypothesis that the turn is a
real player, so the panicking input is never relied upon. -/
def Player.flip : Player → Player
  | Player.Red => Player.Yellow
  | Player.Yellow => Player.Red
  | Player.Empty => Player.Empty

/-- Numeric rank of a player matching the derived Rust `Ord`
(declaration order `Red < Yellow < Empty`). -/
def Player.rank : Player → Nat
  | Player.Red => 0
  | Player.Yellow => 1
  | Player.Empty => 2

/-- Strict order on players, the derived `Ord` of the Rust enum. -/
def playerLTb (a b : Player) : Bool := a.rank < b.rank

/-- `type Grid = Vec<Vec<Player>>`: a list of columns, each a list of cells
indexed bottom-up.  The `Board` newtype adds nothing semantic. -/
abbrev Grid : Type := List (List Player)

/-- Lexicographic strict comparison of lists, matching Rust's derived
`Ord`/`PartialOrd` on `Vec`: compare elementwise, a strict prefix is smaller. -/
def lexLTb {α : Type} (lt : α → α → Bool) (eqb : α → α → Bool) :
    List α → List α → Bool
  | [], [] => false
  | [], _ :: _ => true
  | _ :: _, [] => false
  | a :: as₀, b :: bs₀ =>
    if lt a b then true
    else if eqb a b then lexLTb lt eqb as₀ bs₀
    else false

/-- Column comparison (Rust `Vec<Player>` order). -/
def colLTb (a b : List Player) : Bool :=
  lexLTb playerLTb (fun x y => decide (x = y)) a b

/-- Grid comparison (Rust `Vec<Vec<Player>>` order), used by
`Board::canonical` via `original < &mirror`. -/
def gridLTb (a b : Grid) : Bool :=
  lexLTb colLTb (fun x y => decide (x = y)) a b

/-- `Board::empty()`: `BOARD_W` columns of `BOARD_H` `Empty` cells. -/
def emptyGrid : Grid :=
  List.replicate BOARD_W (List.replicate BOARD_H Player.Empty)

/-- The inner loop of `Board::play` restricted to one column: replace the
first (lowest) `Empty` cell by `player`; `none` when the column is full. -/
def playColList : List Player → Player → Option (List Player)
  | [], _ => none
  | c :: rest, p =>
    if c = Player.Empty then some (p :: rest)
    else (playColList rest p).map (fun r => c :: r)

/-- `Board::play(col, player)` as a pure function: `some` of the updated grid
on success, `none` when column `col` has no `Empty` cell (Rust returns
`Option<usize>` and mutates in place; only success/failure and the updated
grid matter to any caller). -/
def Grid.play (g : Grid) (col : Nat) (p : Player) : Option Grid :=
  match playColList (g.getD col []) p with
  | none => none
  | some c => some (g.set col c)

/-- `Board::canonical()`: the board or its column-order reversal (mirror),
whichever is strictly smaller in the derived lexicographic order; on
equality the mirror (equal anyway) is returned, exactly as in the source
(`if original < &mirror { original } else { mirror }`). -/
def canonical (g : Grid) : Grid :=
  if gridLTb g g.reverse then g else g.reverse

/-- `Board::from_turn(col, player)`: play on a copy, `none` on a full column. -/
def Grid.from_turn (g : Grid) (col : Nat) (p : Player) : Option Grid :=
  Grid.play g col p

/-- `enum Result { Win(Player), Draw, Ongoing }` (tree.rs). -/
inductive Result where
  | Win : Player → Result
  | Draw
  | Ongoing
deriving DecidableEq, Repr

/-- Cell access `board[x][y]`; out-of-bounds reads (which would panic in
Rust and never happen on well-formed calls) give `Empty`. -/
def cellAt (g : Grid) (x y : Nat) : Player :=
  (g.getD x []).getD y Player.Empty

/-- One iteration body of `Result::from_board`'s scan: does a four-in-a-row
through `(x, y)` in one of the four checked directions start here?  The
directional bound tests mirror the source exactly. -/
def winAt (g : Grid) (x y : Nat) : Bool :=
  let p := cellAt g x y
  if p = Player.Empty then false
  else
    (decide (x + 3 < BOARD_W) && decide (cellAt g (x+1) y = p)
      && decide (cellAt g (x+2) y = p) && decide (cellAt g (x+3) y = p))
    || (decide (y + 3 < BOARD_H) && decide (cellAt g x (y+1) = p)
      && decide (cellAt g x (y+2) = p) && decide (cellAt g x (y+3) = p))
    || (decide (x + 3 < BOARD_W) && decide (y + 3 < BOARD_H)
      && decide (cellAt g (x+1) (y+1) = p)
      && decide (cellAt g (x+2) (y+2) = p)
      && decide (cellAt g (x+3) (y+3) = p))
    || (decide (3 ≤ x) && decide (y + 3 < BOARD_H)
      && decide (cellAt g (x-1) (y+1) = p)
      && decide (cellAt g (x-2) (y+2) = p)
      && decide (cellAt g (x-3) (y+3) = p))

/-- The scan order of `Result::from_board`: `x` outer `0..W`, `y` inner
`0..H`. -/
def scanCells : List (Nat × Nat) :=
  (List.range BOARD_W).flatMap (fun x => (List.range BOARD_H).map (fun y => (x, y)))

/-- `Result::from_board`: the first completed line in scan order names the
winner; otherwise `Draw` when no `Empty` cell remains, else `Ongoing`. -/
def Result.from_board (g : Grid) : Result :=
  match scanCells.find? (fun c => winAt g c.1 c.2) with
  | some c => Result.Win (cellAt g c.1 c.2)
  | none =>
    if g.all (fun col => col.all (fun cell => cell ≠ Player.Empty)) then
      Result.Draw
    else Result.Ongoing

/-- `struct GameState` (tree.rs): children is the per-column list of
optional arena handles, `index` the state's own handle once placed. -/
structure GameState where
  board : Grid
  turn : Player
  result : Result
  children : List (Option Nat)
  index : Option Nat
deriving DecidableEq, Repr

/-- `GameState::from_board`: eagerly computed result, no children, no index. -/
def GameState.from_board (board : Grid) (turn : Player) : GameState :=
  { board := board
    turn := turn
    result := Result.from_board board
    children := []
    index := none }

/-- `GameState::from_turn(col)`: drop the active player's piece in `col` on
a copy of the board; on success the turn flips and the result is freshly
computed; `none` when the column is full. -/
def GameState.from_turn (s : GameState) (col : Nat) : Option GameState :=
  match s.board.from_turn col s.turn with
  | some nb =>
    some { board := nb
           turn := s.turn.flip
           result := Result.from_board nb
           children := []
           index := none }
  | none => none

/-- `GameState::ok_children`: the realized child handles, in column order. -/
def GameState.ok_children (s : GameState) : List Nat :=
  s.children.filterMap id

/-- The transposition table `HashMap<Board, StateIndex>`.  Because the Rust
`Hash`/`Eq` instances of `Board` delegate to `canonical`, the map is an
association list probed modulo `canonical`. -/
abbrev TransMap : Type := List (Grid × Nat)

/-- `map.get(&board)`: first entry whose key is canonically equal. -/
def mapGet (m : TransMap) (b : Grid) : Option Nat :=
  match m.find? (fun e => decide (canonical e.1 = canonical b)) with
  | some e => some e.2
  | none => none

/-- `struct Tree { root_index, nodes, map }` (tree.rs). -/
structure Tree where
  root_index : Nat
  nodes : List GameState
  map : TransMap

/-- The degenerate state an out-of-bounds arena read maps to (Rust would
panic; no theorem relies on such a read). -/
def degenerateState : GameState :=
  { board := [], turn := Player.Empty, result := Result.Draw,
    children := [], index := none }

/-- Arena read `self[&state_index]` = `self.nodes[idx.0]`. -/
def node (t : Tree) (i : Nat) : GameState :=
  t.nodes.getD i degenerateState

/-- Arena write through `IndexMut`. -/
def setNode (t : Tree) (i : Nat) (g : GameState) : Tree :=
  { t with nodes := t.nodes.set i g }

/-- `self[&state_index].children.push(c)`. -/
def pushChild (t : Tree) (si : Nat) (c : Option Nat) : Tree :=
  setNode t si { node t si with children := (node t si).children ++ [c] }

/-- `Tree::from_root(root)`: arena holds the root (its own index set to 0)
at handle 0; the transposition map starts `HashMap::new()` — empty: the
source does **not** insert the root's board. -/
def from_root (root : GameState) : Tree :=
  { root_index := 0
    nodes := [{ root with index := some 0 }]
    map := [] }

/-- `Tree::find_children(state_index, depth)`, the expansion loop.  For each
column in order: a full column records a `None` child; a transposition hit
links the existing handle without recursing; a fresh board allocates the
next handle, links it, inserts the canonical board into the map, pushes the
state and recurses with `depth - 1`.  Structure matches the Rust source
line for line; recursion is structural on `depth`. -/
def find_children : Nat → Tree → Nat → Tree
  | 0, t, _ => t
  | d + 1, t, si =>
    if (node t si).result ≠ Result.Ongoing then t
    else
      (List.range BOARD_W).foldl
        (fun acc x =>
          match (node acc si).from_turn x with
          | none => pushChild acc si none
          | some new_state =>
            match mapGet acc.map new_state.board with
            | some idx => pushChild acc si (some idx)
            | none =>
              let new_index := acc.nodes.length
              let t1 := pushChild acc si (some new_index)
              let t2 : Tree :=
                { t1 with
                  map := (canonical new_state.board, new_index) :: t1.map
                  nodes := t1.nodes ++ [{ new_state with index := some new_index }] }
              find_children d t2 new_index)
        t

/-- One iteration of `find_children`'s column loop, factored out for the
proofs; `find_children (d+1)` is the fold of this over the columns. -/
def expandCol (d : Nat) (t : Tree) (si x : Nat) : Tree :=
  match (node t si).from_turn x with
  | none => pushChild t si none
  | some new_state =>
    match mapGet t.map new_state.board with
    | some idx => pushChild t si (some idx)
    | none =>
      let new_index := t.nodes.length
      let t1 := pushChild t si (some new_index)
      let t2 : Tree :=
        { t1 with
          map := (canonical new_state.board, new_index) :: t1.map
          nodes := t1.nodes ++ [{ new_state with index := some new_index }] }
      find_children d t2 new_index

/-- `Tree::explore(depth)`: expansion from the root. -/
def explore (t : Tree) (depth : Nat) : Tree :=
  find_children depth t t.root_index

/-- `Tree::explore_further(depth, head)`: same expansion from an existing
handle (the source additionally prints a node count). -/
def explore_further (t : Tree) (depth : Nat) (head : Nat) : Tree :=
  find_children depth t head

/-- A call sequence of `explore_further` invocations, each a
`(depth, head)` pair, applied in order; heads that are out of bounds (which
would panic in Rust, so no such call exists) leave the tree unchanged. -/
def runOps (t : Tree) : List (Nat × Nat) → Tree
  | [] => t
  | (d, h) :: rest =>
    runOps (if h < t.nodes.length then explore_further t d h else t) rest

/-- The non-`Empty` pieces of one column, bottom-up — the
`col.iter().filter(|&&p| p != Player::Empty)` sequences compared by
`prune_to_target`'s fast check. -/
def colPieces (c : List Player) : List Player :=
  c.filter (fun p => p ≠ Player.Empty)

/-- Total piece count of a grid. -/
def pieces (g : Grid) : Nat :=
  (g.map (fun c => (colPieces c).length)).sum

/-- `prune_to_target`'s fast impossible-branch check (main.rs): some column
of `b`, zipped with the same column of `target`, either already has more
pieces than the target's, or the same number but a different sequence. -/
def fastReject (b target : Grid) : Bool :=
  (b.zip target).any (fun ct =>
    let cp := colPieces ct.1
    let tp := colPieces ct.2
    decide (tp.length < cp.length)
      || (decide (cp.length = tp.length) && decide (cp ≠ tp)))

/-- `prune_to_wins(tree, nodes, state)` (main.rs): bottom-up DFS writing
each visited node's keep bit; returns the updated mask and the node's bit.
The Rust recursion is bounded only by the arena's DAG structure, so the
embedding carries fuel and returns `none` when it runs out (modelling a
non-terminating run, which never happens on explored trees). -/
def prune_to_wins : Nat → Tree → List Bool → Nat → Option (List Bool × Bool)
  | 0, _, _, _ => none
  | f + 1, t, mask, s =>
    let this0 : Bool :=
      match (node t s).result with
      | Result.Win _ => true
      | _ => false
    match (node t s).ok_children.foldl
        (fun acc c =>
          match acc with
          | none => none
          | some (m, b) =>
            match prune_to_wins f t m c with
            | none => none
            | some (m2, cb) => some (m2, b || cb))
        (some (mask, this0)) with
    | none => none
    | some (m, b) => some (m.set s b, b)

/-- `prune_to_target(tree, mask, state, target)` (main.rs): the fast check
rejects immediately; otherwise the node's bit is "canonically equal to the
target, or some realized child's bit", written bottom-up.  Fuel as in
`prune_to_wins`. -/
def prune_to_target : Nat → Tree → List Bool → Nat → Grid →
    Option (List Bool × Bool)
  | 0, _, _, _, _ => none
  | f + 1, t, mask, s, target =>
    let b := (node t s).board
    if fastReject b target then some (mask.set s false, false)
    else
      let this0 : Bool := decide (canonical b = canonical target)
      match (node t s).ok_children.foldl
          (fun acc c =>
            match acc with
            | none => none
            | some (m, r) =>
              match prune_to_target f t m c target with
              | none => none
              | some (m2, cb) => some (m2, r || cb))
          (some (mask, this0)) with
      | none => none
      | some (m, r) => some (m.set s r, r)

/-- `Tree::mask_nodes(keep)` (main.rs): first pass drains the arena,
building the old-to-new index map and the kept nodes in order; second pass
rewrites each kept node's children (dropping unkept or unmapped entries)
and its own stored index; finally the root handle is remapped, falling back
to `0` when the root was not kept.  The transposition map is untouched. -/
def mask_nodes (t : Tree) (keep : List Bool) : Tree :=
  let nodes_len := t.nodes.length
  let fst_pass :=
    (List.range nodes_len).foldl
      (fun acc i =>
        let (otn, nns, k) := acc
        if keep.getD i false then (otn ++ [some k], nns ++ [node t i], k + 1)
        else (otn ++ [none], nns, k))
      (([] : List (Option Nat)), ([] : List GameState), 0)
  let old_to_new := fst_pass.1
  let new_nodes0 := fst_pass.2.1
  let new_nodes :=
    (new_nodes0.zip (List.range new_nodes0.length)).map
      (fun p =>
        { p.1 with
          children :=
            p.1.ok_children.foldl
              (fun cs c =>
                match old_to_new.getD c none with
                | some nc => cs ++ [some nc]
                | none => cs)
              []
          index := some p.2 })
  let new_root :=
    match old_to_new.getD t.root_index none with
    | some r => r
    | none => 0
  { root_index := new_root, nodes := new_nodes, map := t.map }

/-!  Spec-side definitions, used only to state the pruning claims.  They
follow the claim's words ("a node's keep bit is true iff its own result is
Win, or some realized child's keep bit is true, recursively"), not the
source. -/

/-- Is a node's own result a win for either player? -/
def isWin (r : Result) : Bool :=
  match r with
  | Result.Win _ => true
  | _ => false

/-- Modelled from the claim: the logical OR, over the subgraph reachable
through realized children within `fuel` steps, of "this node's result is a
win". -/
def winReachSpec : Nat → Tree → Nat → Bool
  | 0, _, _ => false
  | f + 1, t, s =>
    isWin (node t s).result
      || (node t s).ok_children.any (fun c => winReachSpec f t c)

/-- Modelled from the claim: `v` is reachable from `s` through realized
children within `fuel` steps. -/
def reachSpec : Nat → Tree → Nat → Nat → Bool
  | 0, _, _, _ => false
  | f + 1, t, s, v =>
    decide (s = v) || (node t s).ok_children.any (fun c => reachSpec f t c v)

/-- Is the first list an initial segment of the second? -/
def isStart : List Player → List Player → Bool
  | [], _ => true
  | _ :: _, [] => false
  | a :: as₀, b :: bs₀ => decide (a = b) && isStart as₀ bs₀

/-- The child-loop of `prune_to_wins`, named for the proofs:
`prune_to_wins (f+1)` is this fold over the node's realized children. -/
def pruneWinsFold (f : Nat) (t : Tree) (l : List Nat)
    (init : Option (List Bool × Bool)) : Option (List Bool × Bool) :=
  l.foldl
    (fun acc c =>
      match acc with
      | none => none
      | some (m, b) =>
        match prune_to_wins f t m c with
        | none => none
        | some (m2, cb) => some (m2, b || cb))
    init

/-- The child-loop of `prune_to_target`, named for the proofs. -/
def pruneTargetFold (f : Nat) (t : Tree) (target : Grid) (l : List Nat)
    (init : Option (List Bool × Bool)) : Option (List Bool × Bool) :=
  l.foldl
    (fun acc c =>
      match acc with
      | none => none
      | some (m, r) =>
        match prune_to_target f t m c target with
        | none => none
        | some (m2, cb) => some (m2, r || cb))
    init

/-- The old-handle to new-handle translation `mask_nodes` builds: a kept,
in-bounds slot maps to its rank among kept slots, everything else to
`none`. -/
def oldToNew (t : Tree) (keep : List Bool) (c : Nat) : Option Nat :=
  if c < t.nodes.length ∧ keep.getD c false = true then
    some ((List.range c).countP (fun i => keep.getD i false))
  else none

/-- The kept slot numbers, in increasing order. -/
def keptIdx (t : Tree) (keep : List Bool) : List Nat :=
  (List.range t.nodes.length).filter (fun i => keep.getD i false)

/-!  Claim-level predicates about trees. -/

/-- "Column `i` of `g` is full": it has no `Empty` cell.  This is exactly
the condition under which `Board::play(i, _)` returns `None`. -/
def colFull (g : Grid) (i : Nat) : Bool :=
  (g.getD i []).all (fun p => decide (p ≠ Player.Empty))

/-- The property of a freshly generated children block for board `b`:
exactly `BOARD_W` entries, entry `i` is `none` iff column `i` is full. -/
def extSpec (b : Grid) (ext : List (Option Nat)) : Prop :=
  ext.length = BOARD_W ∧
  ∀ i, i < BOARD_W → (ext.getD i none = none ↔ colFull b i = true)

/-- A node in a singly-explored tree: either never expanded (no children
recorded) or expanded exactly once with the full per-column block. -/
def goodNode (g : GameState) : Prop :=
  g.children = [] ∨ extSpec g.board g.children

/-- Every node's active player is a real player (`flip` never panics). -/
def turnsOK (t : Tree) : Prop :=
  ∀ j, j < t.nodes.length → (node t j).turn ≠ Player.Empty

/-- Every non-root arena slot holds strictly more pieces than slot 0.  This
is what keeps the explorer sound even though `from_root` never inserts the
root into the transposition map. -/
def rootMin (t : Tree) : Prop :=
  ∀ j, 1 ≤ j → j < t.nodes.length →
    pieces (node t 0).board < pieces (node t j).board

/-- Every transposition entry points at a non-root arena slot and stores
exactly the canonical board of that slot. -/
def mapSound (t : Tree) : Prop :=
  ∀ e ∈ t.map, 1 ≤ e.2 ∧ e.2 < t.nodes.length ∧
    e.1 = canonical (node t e.2).board

/-- Every non-root arena slot is covered by some transposition entry. -/
def mapComplete (t : Tree) : Prop :=
  ∀ j, 1 ≤ j → j < t.nodes.length →
    ∃ e ∈ t.map, canonical e.1 = canonical (node t j).board

/-- No two arena slots hold canonically equal boards. -/
def distinctBoards (t : Tree) : Prop :=
  ∀ j k, j < t.nodes.length → k < t.nodes.length → j ≠ k →
    canonical (node t j).board ≠ canonical (node t k).board

/-- The explorer's arena/transposition invariant. -/
def Inv (t : Tree) : Prop :=
  turnsOK t ∧ rootMin t ∧ mapSound t ∧ mapComplete t ∧ distinctBoards t

/-- Everything a `find_children` call guarantees: the invariant is kept,
the arena only grows, other old nodes are untouched, the expanded node
keeps its scalar fields and either keeps its children or gains one full
per-column block, and all newly created nodes are `goodNode`. -/
def FCPost (t r : Tree) (si : Nat) : Prop :=
  Inv r ∧
  t.nodes.length ≤ r.nodes.length ∧
  r.root_index = t.root_index ∧
  (∀ j, j < t.nodes.length → j ≠ si → node r j = node t j) ∧
  ((node r si).board = (node t si).board ∧
   (node r si).turn = (node t si).turn ∧
   (node r si).result = (node t si).result ∧
   (node r si).index = (node t si).index) ∧
  (∃ ext, (node r si).children = (node t si).children ++ ext ∧
    (ext = [] ∨ extSpec (node t si).board ext)) ∧
  (∀ j, t.nodes.length ≤ j → j < r.nodes.length → goodNode (node r j))

/-- What one `expandCol` step guarantees: invariant kept, arena only grows,
other nodes untouched, exactly one child entry appended at `si` (a `none`
exactly when column `x` is full), and all newly created nodes good. -/
def ECPost (t r : Tree) (si x : Nat) : Prop :=
  Inv r ∧
  t.nodes.length ≤ r.nodes.length ∧
  r.root_index = t.root_index ∧
  (∀ j, j < t.nodes.length → j ≠ si → node r j = node t j) ∧
  ((node r si).board = (node t si).board ∧
   (node r si).turn = (node t si).turn ∧
   (node r si).result = (node t si).result ∧
   (node r si).index = (node t si).index) ∧
  (∃ c, (node r si).children = (node t si).children ++ [c] ∧
    (c = none ↔ colFull (node t si).board x = true)) ∧
  (∀ j, t.nodes.length ≤ j → j < r.nodes.length → goodNode (node r j))

/-- What the column loop over columns `k, k+1, …, k+n-1` guarantees:
as `ECPost` but with `n` appended entries, entry `i` corresponding to
column `k + i`. -/
def FoldPost (t r : Tree) (si k n : Nat) : Prop :=
  Inv r ∧
  t.nodes.length ≤ r.nodes.length ∧
  r.root_index = t.root_index ∧
  (∀ j, j < t.nodes.length → j ≠ si → node r j = node t j) ∧
  ((node r si).board = (node t si).board ∧
   (node r si).turn = (node t si).turn ∧
   (node r si).result = (node t si).result ∧
   (node r si).index = (node t si).index) ∧
  (∃ ext, (node r si).children = (node t si).children ++ ext ∧
    ext.length = n ∧
    ∀ i, i < n →
      (ext.getD i none = none ↔ colFull (node t si).board (k + i) = true)) ∧
  (∀ j, t.nodes.length ≤ j → j < r.nodes.length → goodNode (node r j))

/-- The tree state built by `find_children`'s allocation branch just before
it recurses: child pushed at `si`, canonical board inserted into the map,
new state (with its index set) appended to the arena. -/
def allocTree (t : Tree) (si : Nat) (ns : GameState) : Tree :=
  { pushChild t si (some t.nodes.length) with
    map := (canonical ns.board, t.nodes.length) ::
      (pushChild t si (some t.nodes.length)).map
    nodes := (pushChild t si (some t.nodes.length)).nodes ++
      [{ ns with index := some t.nodes.length }] }

/-!  Concrete objects for the scenario claims. -/

/-- The standard root: empty board, first player to move. -/
def rootState : GameState := GameState.from_board emptyGrid Player.Red

/-- The tree after `explore(1)` from the standard root. -/
def tExp1 : Tree := explore (from_root rootState) 1

/-- A single red piece in column 6: the mirror image of arena slot 1 of
`tExp1` (whose stored board has the piece in column 0). -/
def mirrorTarget : Grid :=
  emptyGrid.set 6 [Player.Red, Player.Empty, Player.Empty, Player.Empty,
    Player.Empty, Player.Empty]

/-- `tExp1` after the first four columns of a second root expansion have
been processed: the next column, 4, is a transposition hit. -/
def tPartial : Tree :=
  [0, 1, 2, 3].foldl (fun acc x => expandCol 0 acc 0 x)
    (from_root rootState)

/-! ### Basic lemmas: columns, playing, piece counts, canonicalization -/

theorem playColList_eq_none {c : List Player} {p : Player} :
    playColList c p = none ↔ c.all (fun q => decide (q ≠ Player.Empty)) = true := by
  induction c with
  | nil => simp [playColList]
  | cons a rest ih =>
    by_cases h : a = Player.Empty
    · subst h
      simp [playColList]
    · simp [playColList, h, ih, Option.map_eq_none']

theorem flip_ne_empty {p : Player} (h : p ≠ Player.Empty) :
    p.flip ≠ Player.Empty := by
  cases p <;> simp_all [Player.flip]

theorem colPieces_cons_empty (rest : List Player) :
    colPieces (Player.Empty :: rest) = colPieces rest := by
  simp [colPieces]

theorem colPieces_cons_ne {a : Player} (rest : List Player)
    (h : a ≠ Player.Empty) : colPieces (a :: rest) = a :: colPieces rest := by
  simp [colPieces, h]

theorem colPieces_playColList {c c' : List Player} {p : Player}
    (hp : p ≠ Player.Empty) (h : playColList c p = some c') :
    (colPieces c').length = (colPieces c).length + 1 := by
  induction c generalizing c' with
  | nil => simp [playColList] at h
  | cons a rest ih =>
    by_cases ha : a = Player.Empty
    · subst ha
      unfold playColList at h
      rw [if_pos rfl] at h
      simp only [Option.some.injEq] at h
      subst h
      rw [colPieces_cons_empty, colPieces_cons_ne rest hp]
      simp
    · unfold playColList at h
      rw [if_neg ha] at h
      simp only [Option.map_eq_some'] at h
      obtain ⟨r, hr, hc⟩ := h
      subst hc
      rw [colPieces_cons_ne r ha, colPieces_cons_ne rest ha]
      simp [ih hr]

theorem pieces_cons (c : List Player) (g : Grid) :
    pieces (c :: g) = (colPieces c).length + pieces g := by
  simp [pieces]

theorem pieces_set_succ :
    ∀ (g : Grid) (x : Nat) (c' : List Player), x < g.length →
      (colPieces c').length = (colPieces (g.getD x [])).length + 1 →
      pieces (g.set x c') = pieces g + 1
  | [], x, _, hx, _ => by simp at hx
  | c :: g, 0, c', _, h => by
    simp only [List.getD, List.getElem?_cons_zero, Option.getD_some] at h
    simp [pieces_cons, h]
    omega
  | c :: g, x + 1, c', hx, h => by
    simp only [List.length_cons, Nat.add_lt_add_iff_right] at hx
    simp only [List.getD, List.getElem?_cons_succ] at h
    have := pieces_set_succ g x c' hx h
    simp [pieces_cons, List.set_cons_succ, this]
    omega

theorem play_pieces {g g' : Grid} {x : Nat} {p : Player}
    (hp : p ≠ Player.Empty) (hx : x < g.length) (h : Grid.play g x p = some g') :
    pieces g' = pieces g + 1 := by
  unfold Grid.play at h
  cases hc : playColList (g.getD x []) p with
  | none => rw [hc] at h; exact absurd h (by simp)
  | some c' =>
    rw [hc] at h
    simp only [Option.some.injEq] at h
    subst h
    exact pieces_set_succ g x c' hx (colPieces_playColList hp hc)

theorem play_isSome_iff {g : Grid} {x : Nat} {p : Player} :
    (Grid.play g x p) = none ↔ colFull g x = true := by
  unfold Grid.play colFull
  rw [← playColList_eq_none (p := p)]
  cases playColList (g.getD x []) p <;> simp

theorem play_length {g g' : Grid} {x : Nat} {p : Player}
    (h : Grid.play g x p = some g') : g'.length = g.length := by
  unfold Grid.play at h
  cases hc : playColList (g.getD x []) p with
  | none => rw [hc] at h; exact absurd h (by simp)
  | some c' =>
    rw [hc] at h
    simp only [Option.some.injEq] at h
    subst h
    simp

theorem from_turn_none_iff {s : GameState} {x : Nat} :
    s.from_turn x = none ↔ colFull s.board x = true := by
  unfold GameState.from_turn Grid.from_turn
  cases hp : Grid.play s.board x s.turn with
  | none => simpa using play_isSome_iff.mp hp
  | some nb =>
    simp only []
    constructor
    · intro h; exact absurd h (by simp)
    · intro h
      have : Grid.play s.board x s.turn = none := play_isSome_iff.mpr h
      rw [this] at hp
      exact absurd hp (by simp)

theorem from_turn_some {s ns : GameState} {x : Nat}
    (h : s.from_turn x = some ns) :
    Grid.play s.board x s.turn = some ns.board ∧
    ns.turn = s.turn.flip ∧
    ns.result = Result.from_board ns.board ∧
    ns.children = [] ∧ ns.index = none := by
  unfold GameState.from_turn Grid.from_turn at h
  cases hp : Grid.play s.board x s.turn with
  | none => rw [hp] at h; exact absurd h (by simp)
  | some nb =>
    rw [hp] at h
    simp only [Option.some.injEq] at h
    subst h
    simp

theorem pieces_reverse (g : Grid) : pieces g.reverse = pieces g := by
  unfold pieces
  rw [List.map_reverse, List.sum_reverse]

theorem pieces_canonical (g : Grid) : pieces (canonical g) = pieces g := by
  unfold canonical
  split
  · rfl
  · exact pieces_reverse g

theorem pieces_eq_of_canonical_eq {a b : Grid} (h : canonical a = canonical b) :
    pieces a = pieces b := by
  rw [← pieces_canonical a, h, pieces_canonical]

theorem lexLTb_connex {α : Type} {lt eqb : α → α → Bool}
    (heq : ∀ a b, eqb a b = true ↔ a = b)
    (hconn : ∀ a b, lt a b = false → lt b a = false → a = b) :
    ∀ as₀ bs₀ : List α,
      lexLTb lt eqb as₀ bs₀ = false → lexLTb lt eqb bs₀ as₀ = false → as₀ = bs₀
  | [], [], _, _ => rfl
  | [], _ :: _, h1, _ => by simp [lexLTb] at h1
  | _ :: _, [], _, h2 => by simp [lexLTb] at h2
  | a :: as₀, b :: bs₀, h1, h2 => by
    by_cases hab : eqb a b = true
    · have hab' : a = b := (heq a b).mp hab
      subst hab'
      have hba : eqb a a = true := (heq a a).mpr rfl
      by_cases hlt : lt a a = true
      · simp [lexLTb, hlt] at h1
      · simp only [lexLTb, Bool.not_eq_true] at h1 h2
        rw [if_neg (by simp [Bool.not_eq_true] at hlt; simp [hlt]),
          if_pos hba] at h1 h2
        rw [lexLTb_connex heq hconn as₀ bs₀ h1 h2]
    · by_cases hlt : lt a b = true
      · simp [lexLTb, hlt] at h1
      · by_cases hlt' : lt b a = true
        · simp [lexLTb, hlt'] at h2
        · exact absurd ((heq a b).mpr
            (hconn a b (by simpa using hlt) (by simpa using hlt'))) hab

theorem playerLTb_connex (a b : Player) :
    playerLTb a b = false → playerLTb b a = false → a = b := by
  cases a <;> cases b <;> decide

theorem colLTb_connex (a b : List Player) :
    colLTb a b = false → colLTb b a = false → a = b :=
  lexLTb_connex (fun x y => by simp) playerLTb_connex a b

theorem gridLTb_connex (a b : Grid) :
    gridLTb a b = false → gridLTb b a = false → a = b :=
  lexLTb_connex (fun x y => by simp) colLTb_connex a b

theorem canonical_idem (g : Grid) : canonical (canonical g) = canonical g := by
  by_cases h : gridLTb g g.reverse = true
  · have h1 : canonical g = g := by unfold canonical; rw [if_pos h]
    rw [h1]
    exact h1
  · have h1 : canonical g = g.reverse := by unfold canonical; rw [if_neg h]
    rw [h1]
    unfold canonical
    rw [List.reverse_reverse]
    by_cases h2 : gridLTb g.reverse g = true
    · rw [if_pos h2]
    · rw [if_neg h2]
      exact (gridLTb_connex g.reverse g (by simpa using h2)
        (by simpa using h)).symm

/-! ### Frame lemmas for arena updates -/

theorem play_some_lt {g g' : Grid} {x : Nat} {p : Player}
    (h : Grid.play g x p = some g') : x < g.length := by
  by_contra hx
  push_neg at hx
  have hd : g.getD x [] = [] := List.getD_eq_default _ _ hx
  unfold Grid.play at h
  rw [hd] at h
  simp [playColList] at h

theorem length_pushChild (t : Tree) (si : Nat) (c : Option Nat) :
    (pushChild t si c).nodes.length = t.nodes.length := by
  simp [pushChild, setNode]

theorem root_pushChild (t : Tree) (si : Nat) (c : Option Nat) :
    (pushChild t si c).root_index = t.root_index := rfl

theorem map_pushChild (t : Tree) (si : Nat) (c : Option Nat) :
    (pushChild t si c).map = t.map := rfl

theorem node_pushChild_ne {t : Tree} {si j : Nat} (c : Option Nat)
    (h : j ≠ si) : node (pushChild t si c) j = node t j := by
  unfold pushChild setNode node
  rw [List.getD_eq_getElem?_getD, List.getElem?_set_ne (Ne.symm h),
    ← List.getD_eq_getElem?_getD]

theorem node_pushChild_self {t : Tree} {si : Nat} (c : Option Nat)
    (h : si < t.nodes.length) :
    node (pushChild t si c) si =
      { node t si with children := (node t si).children ++ [c] } := by
  unfold pushChild setNode node
  rw [List.getD_eq_getElem?_getD, List.getElem?_set_self h]
  rfl

theorem node_pushChild_fields (t : Tree) {si : Nat} (c : Option Nat)
    (hsi : si < t.nodes.length) (j : Nat) :
    (node (pushChild t si c) j).board = (node t j).board ∧
    (node (pushChild t si c) j).turn = (node t j).turn ∧
    (node (pushChild t si c) j).result = (node t j).result ∧
    (node (pushChild t si c) j).index = (node t j).index := by
  by_cases hj : j = si
  · subst hj
    rw [node_pushChild_self c hsi]
    exact ⟨rfl, rfl, rfl, rfl⟩
  · rw [node_pushChild_ne c hj]
    exact ⟨rfl, rfl, rfl, rfl⟩

theorem inv_pushChild {t : Tree} {si : Nat} (c : Option Nat)
    (hsi : si < t.nodes.length) (h : Inv t) : Inv (pushChild t si c) := by
  obtain ⟨ht, hr, hs, hc, hd⟩ := h
  refine ⟨?_, ?_, ?_, ?_, ?_⟩
  · intro j hj
    rw [(node_pushChild_fields t c hsi j).2.1]
    exact ht j (by rwa [length_pushChild] at hj)
  · intro j h1 hj
    rw [(node_pushChild_fields t c hsi j).1, (node_pushChild_fields t c hsi 0).1]
    exact hr j h1 (by rwa [length_pushChild] at hj)
  · intro e he
    rw [map_pushChild] at he
    obtain ⟨h1, h2, h3⟩ := hs e he
    refine ⟨h1, by rwa [length_pushChild], ?_⟩
    rw [(node_pushChild_fields t c hsi e.2).1]
    exact h3
  · intro j h1 hj
    rw [length_pushChild] at hj
    obtain ⟨e, he, hk⟩ := hc j h1 hj
    refine ⟨e, by rwa [map_pushChild], ?_⟩
    rw [(node_pushChild_fields t c hsi j).1]
    exact hk
  · intro j k hj hk hjk
    rw [length_pushChild] at hj hk
    rw [(node_pushChild_fields t c hsi j).1, (node_pushChild_fields t c hsi k).1]
    exact hd j k hj hk hjk

theorem mapGet_eq_none {m : TransMap} {b : Grid} :
    mapGet m b = none ↔ ∀ e ∈ m, canonical e.1 ≠ canonical b := by
  unfold mapGet
  cases hf : m.find? (fun e => decide (canonical e.1 = canonical b)) with
  | some e =>
    simp only []
    constructor
    · intro h; exact absurd h (by simp)
    · intro h
      have hm := List.mem_of_find?_eq_some hf
      have hp := List.find?_some hf
      simp only [decide_eq_true_eq] at hp
      exact absurd hp (h e hm)
  | none =>
    rw [List.find?_eq_none] at hf
    constructor
    · intro _ e he
      simpa using hf e he
    · intro _
      rfl

/-! ### The three branches of `expandCol`, and the allocation invariant -/

theorem expandCol_full {t : Tree} {si x : Nat} (d : Nat)
    (hft : (node t si).from_turn x = none) :
    expandCol d t si x = pushChild t si none := by
  unfold expandCol
  rw [hft]

theorem expandCol_hit {t : Tree} {si x idx : Nat} {ns : GameState} (d : Nat)
    (hft : (node t si).from_turn x = some ns)
    (hmg : mapGet t.map ns.board = some idx) :
    expandCol d t si x = pushChild t si (some idx) := by
  unfold expandCol
  rw [hft]
  simp only [hmg]

theorem expandCol_miss {t : Tree} {si x : Nat} {ns : GameState} (d : Nat)
    (hft : (node t si).from_turn x = some ns)
    (hmg : mapGet t.map ns.board = none) :
    expandCol d t si x = find_children d (allocTree t si ns) t.nodes.length := by
  unfold expandCol allocTree
  rw [hft]
  simp only [hmg]

theorem length_allocTree (t : Tree) (si : Nat) (ns : GameState) :
    (allocTree t si ns).nodes.length = t.nodes.length + 1 := by
  simp [allocTree, length_pushChild]

theorem root_allocTree (t : Tree) (si : Nat) (ns : GameState) :
    (allocTree t si ns).root_index = t.root_index := rfl

theorem map_allocTree (t : Tree) (si : Nat) (ns : GameState) :
    (allocTree t si ns).map =
      (canonical ns.board, t.nodes.length) :: t.map := rfl

theorem node_allocTree_lt {t : Tree} {si : Nat} {ns : GameState} {j : Nat}
    (hj : j < t.nodes.length) :
    node (allocTree t si ns) j = node (pushChild t si (some t.nodes.length)) j := by
  unfold allocTree node
  exact List.getD_append _ _ _ _ (by rw [length_pushChild]; exact hj)

theorem node_allocTree_new (t : Tree) (si : Nat) (ns : GameState) :
    node (allocTree t si ns) t.nodes.length =
      { ns with index := some t.nodes.length } := by
  unfold allocTree node
  rw [List.getD_append_right _ _ _ _ (by rw [length_pushChild])]
  rw [length_pushChild]
  simp

theorem inv_allocTree {t : Tree} {si x : Nat} {ns : GameState}
    (hsi : si < t.nodes.length) (hInv : Inv t)
    (hft : (node t si).from_turn x = some ns)
    (hmg : mapGet t.map ns.board = none) :
    Inv (allocTree t si ns) := by
  obtain ⟨hplay, hturn, _, _, _⟩ := from_turn_some hft
  have hfields1 := node_pushChild_fields t (some t.nodes.length) hsi
  have hpieces : pieces ns.board = pieces (node t si).board + 1 :=
    play_pieces (hInv.1 si hsi) (play_some_lt hplay) hplay
  have hnewne : ∀ j, j < t.nodes.length →
      canonical (node t j).board ≠ canonical ns.board := by
    intro j hjlt heq
    by_cases hj0 : j = 0
    · subst hj0
      have hp := pieces_eq_of_canonical_eq heq
      by_cases hsi0 : si = 0
      · rw [hsi0] at hpieces
        omega
      · have := hInv.2.1 si (by omega) hsi
        omega
    · obtain ⟨e, hem, hek⟩ := hInv.2.2.2.1 j (by omega) hjlt
      have hne := mapGet_eq_none.mp hmg e hem
      rw [hek] at hne
      exact hne heq
  refine ⟨?_, ?_, ?_, ?_, ?_⟩
  · -- turnsOK
    intro j hj
    rw [length_allocTree] at hj
    by_cases hjL : j = t.nodes.length
    · subst hjL
      rw [node_allocTree_new]
      show ns.turn ≠ Player.Empty
      rw [hturn]
      exact flip_ne_empty (hInv.1 si hsi)
    · have hjlt : j < t.nodes.length := by omega
      rw [node_allocTree_lt hjlt, (hfields1 j).2.1]
      exact hInv.1 j hjlt
  · -- rootMin
    intro j h1 hj
    rw [length_allocTree] at hj
    have h0 : node (allocTree t si ns) 0 =
        node (pushChild t si (some t.nodes.length)) 0 :=
      node_allocTree_lt (by omega)
    by_cases hjL : j = t.nodes.length
    · subst hjL
      rw [node_allocTree_new, h0, (hfields1 0).1]
      show pieces (node t 0).board < pieces ns.board
      by_cases hsi0 : si = 0
      · rw [hsi0] at hpieces
        omega
      · have := hInv.2.1 si (by omega) hsi
        omega
    · have hjlt : j < t.nodes.length := by omega
      rw [node_allocTree_lt hjlt, h0, (hfields1 j).1, (hfields1 0).1]
      exact hInv.2.1 j h1 hjlt
  · -- mapSound
    intro e he
    rw [map_allocTree] at he
    rcases List.mem_cons.mp he with heq | hmem
    · subst heq
      refine ⟨by omega, by rw [length_allocTree]; omega, ?_⟩
      rw [node_allocTree_new]
    · obtain ⟨h1, h2, h3⟩ := hInv.2.2.1 e hmem
      refine ⟨h1, by rw [length_allocTree]; omega, ?_⟩
      rw [node_allocTree_lt h2, (hfields1 e.2).1]
      exact h3
  · -- mapComplete
    intro j h1 hj
    rw [length_allocTree] at hj
    by_cases hjL : j = t.nodes.length
    · subst hjL
      refine ⟨(canonical ns.board, t.nodes.length), ?_, ?_⟩
      · rw [map_allocTree]
        exact List.mem_cons_self _ _
      · rw [node_allocTree_new]
        exact canonical_idem ns.board
    · have hjlt : j < t.nodes.length := by omega
      obtain ⟨e, hem, hek⟩ := hInv.2.2.2.1 j h1 hjlt
      refine ⟨e, by rw [map_allocTree]; exact List.mem_cons_of_mem _ hem, ?_⟩
      rw [node_allocTree_lt hjlt, (hfields1 j).1]
      exact hek
  · -- distinctBoards
    intro j k hj hk hjk
    rw [length_allocTree] at hj hk
    by_cases hjL : j = t.nodes.length
    · subst hjL
      have hklt : k < t.nodes.length := by omega
      rw [node_allocTree_new, node_allocTree_lt hklt, (hfields1 k).1]
      show canonical ns.board ≠ canonical (node t k).board
      exact fun h => hnewne k hklt h.symm
    · by_cases hkL : k = t.nodes.length
      · subst hkL
        have hjlt : j < t.nodes.length := by omega
        rw [node_allocTree_new, node_allocTree_lt hjlt, (hfields1 j).1]
        show canonical (node t j).board ≠ canonical ns.board
        exact hnewne j hjlt
      · have hjlt : j < t.nodes.length := by omega
        have hklt : k < t.nodes.length := by omega
        rw [node_allocTree_lt hjlt, node_allocTree_lt hklt,
          (hfields1 j).1, (hfields1 k).1]
        exact hInv.2.2.2.2 j k hjlt hklt hjk

/-! ### The expansion step, the column loop, and the full explorer -/

theorem pushChild_post {t : Tree} {si x : Nat} (c : Option Nat)
    (hsi : si < t.nodes.length) (hInv : Inv t)
    (hiff : c = none ↔ colFull (node t si).board x = true) :
    ECPost t (pushChild t si c) si x := by
  have hfields := node_pushChild_fields t c hsi
  refine ⟨inv_pushChild c hsi hInv, by rw [length_pushChild],
    root_pushChild t si c, ?_, hfields si, ⟨c, ?_, hiff⟩, ?_⟩
  · intro j hj hne
    exact node_pushChild_ne c hne
  · rw [node_pushChild_self c hsi]
  · intro j hj1 hj2
    rw [length_pushChild] at hj2
    omega

theorem expandCol_post (d : Nat)
    (IH : ∀ t si, si < t.nodes.length → Inv t →
      FCPost t (find_children d t si) si) :
    ∀ t si x, si < t.nodes.length → Inv t →
      ECPost t (expandCol d t si x) si x := by
  intro t si x hsi hInv
  cases hft : (node t si).from_turn x with
  | none =>
    rw [expandCol_full d hft]
    exact pushChild_post none hsi hInv
      (by simpa using from_turn_none_iff.mp hft)
  | some ns =>
    have hnotfull : ¬ colFull (node t si).board x = true := by
      intro hcf
      have := from_turn_none_iff.mpr hcf
      rw [hft] at this
      exact absurd this (by simp)
    cases hmg : mapGet t.map ns.board with
    | some idx =>
      rw [expandCol_hit d hft hmg]
      exact pushChild_post (some idx) hsi hInv
        (by constructor
            · intro h; exact absurd h (by simp)
            · intro h; exact absurd h hnotfull)
    | none =>
      rw [expandCol_miss d hft hmg]
      obtain ⟨hplay, hturn, hres, hch, hidx⟩ := from_turn_some hft
      have hInv2 := inv_allocTree hsi hInv hft hmg
      have hlen2 := length_allocTree t si ns
      have hfields1 := node_pushChild_fields t (some t.nodes.length) hsi
      obtain ⟨hInvR, hlenR, hrootR, hframeR, hfieldsR, ⟨ext, hext, hextspec⟩,
        hnewR⟩ := IH (allocTree t si ns) t.nodes.length (by omega) hInv2
      have hsine : si ≠ t.nodes.length := by omega
      have hnsi : node (find_children d (allocTree t si ns) t.nodes.length) si =
          node (pushChild t si (some t.nodes.length)) si := by
        rw [hframeR si (by omega) hsine, node_allocTree_lt hsi]
      refine ⟨hInvR, by omega, by rw [hrootR, root_allocTree], ?_, ?_, ?_, ?_⟩
      · -- frame for other old nodes
        intro j hj hne
        rw [hframeR j (by omega) (by omega), node_allocTree_lt hj,
          node_pushChild_ne _ hne]
      · -- scalar fields of si preserved
        rw [hnsi]
        exact hfields1 si
      · -- the appended child entry
        refine ⟨some t.nodes.length, ?_, ?_⟩
        · rw [hnsi, node_pushChild_self _ hsi]
        · constructor
          · intro h; exact absurd h (by simp)
          · intro h; exact absurd h hnotfull
      · -- all new nodes are good
        intro j hj1 hj2
        by_cases hjL : j = t.nodes.length
        · subst hjL
          have hchR : (node (find_children d (allocTree t si ns)
              t.nodes.length) t.nodes.length).children = ext := by
            rw [hext, node_allocTree_new]
            show ns.children ++ ext = ext
            rw [hch]
            rfl
          have hbR : (node (find_children d (allocTree t si ns)
              t.nodes.length) t.nodes.length).board = ns.board := by
            rw [hfieldsR.1, node_allocTree_new]
          unfold goodNode
          rw [hchR, hbR]
          rcases hextspec with hnil | hspec
          · left; exact hnil
          · right
            rw [node_allocTree_new] at hspec
            exact hspec
        · exact hnewR j (by omega) hj2

theorem fold_post (d : Nat)
    (IH : ∀ t si, si < t.nodes.length → Inv t →
      FCPost t (find_children d t si) si) :
    ∀ n k t si, si < t.nodes.length → Inv t →
      FoldPost t
        ((List.range' k n).foldl (fun acc x => expandCol d acc si x) t) si k n := by
  intro n
  induction n with
  | zero =>
    intro k t si hsi hInv
    simp only [List.range'_zero, List.foldl_nil]
    exact ⟨hInv, le_refl _, rfl, fun j hj hne => rfl, ⟨rfl, rfl, rfl, rfl⟩,
      ⟨[], (List.append_nil _).symm, rfl, fun i hi => absurd hi (by omega)⟩,
      fun j h1 h2 => absurd (lt_of_le_of_lt h1 h2) (lt_irrefl _)⟩
  | succ n ihn =>
    intro k t si hsi hInv
    rw [List.range'_succ, List.foldl_cons]
    obtain ⟨hInv1, hlen1, hroot1, hframe1, ⟨hb1, ht1, hr1, hi1⟩,
      ⟨c, hc, hciff⟩, hnew1⟩ := expandCol_post d IH t si k hsi hInv
    obtain ⟨hInv2, hlen2, hroot2, hframe2, ⟨hb2, ht2, hr2, hi2⟩,
      ⟨ext, hext, hextlen, hextpos⟩, hnew2⟩ :=
      ihn (k + 1) (expandCol d t si k) si (by omega) hInv1
    refine ⟨hInv2, by omega, by rw [hroot2, hroot1], ?_, ?_, ?_, ?_⟩
    · intro j hj hne
      rw [hframe2 j (by omega) hne, hframe1 j hj hne]
    · exact ⟨hb2.trans hb1, ht2.trans ht1, hr2.trans hr1, hi2.trans hi1⟩
    · refine ⟨c :: ext, ?_, by simp [hextlen], ?_⟩
      · rw [hext, hc, List.append_assoc]
        rfl
      · intro i hi
        cases i with
        | zero =>
          simpa using hciff
        | succ i =>
          have hp := hextpos i (by omega)
          rw [hb1] at hp
          have hidx : k + 1 + i = k + (i + 1) := by omega
          rw [hidx] at hp
          simpa using hp
    · intro j hj1 hj2
      by_cases hjlt : j < (expandCol d t si k).nodes.length
      · rw [hframe2 j hjlt (by omega)]
        exact hnew1 j hj1 hjlt
      · exact hnew2 j (by omega) hj2

theorem find_children_succ (d : Nat) (t : Tree) (si : Nat) :
    find_children (d + 1) t si =
      if (node t si).result ≠ Result.Ongoing then t
      else (List.range BOARD_W).foldl (fun acc x => expandCol d acc si x) t :=
  rfl

theorem fc_main : ∀ fuel t si, si < t.nodes.length → Inv t →
    FCPost t (find_children fuel t si) si := by
  intro fuel
  induction fuel with
  | zero =>
    intro t si hsi hInv
    exact ⟨hInv, le_refl _, rfl, fun j hj hne => rfl, ⟨rfl, rfl, rfl, rfl⟩,
      ⟨[], (List.append_nil _).symm, Or.inl rfl⟩,
      fun j h1 h2 => absurd (lt_of_le_of_lt h1 h2) (lt_irrefl _)⟩
  | succ d ihd =>
    intro t si hsi hInv
    rw [find_children_succ]
    by_cases hres : (node t si).result ≠ Result.Ongoing
    · rw [if_pos hres]
      exact ⟨hInv, le_refl _, rfl, fun j hj hne => rfl, ⟨rfl, rfl, rfl, rfl⟩,
        ⟨[], (List.append_nil _).symm, Or.inl rfl⟩,
        fun j h1 h2 => absurd (lt_of_le_of_lt h1 h2) (lt_irrefl _)⟩
    · rw [if_neg hres, List.range_eq_range']
      obtain ⟨hInv2, hlen, hroot, hframe, hfields,
        ⟨ext, hext, hextlen, hextpos⟩, hnew⟩ :=
        fold_post d ihd BOARD_W 0 t si hsi hInv
      refine ⟨hInv2, hlen, hroot, hframe, hfields,
        ⟨ext, hext, Or.inr ⟨hextlen, ?_⟩⟩, hnew⟩
      intro i hi
      simpa using hextpos i hi

/-! ### Deriving the explorer claims -/

theorem node_from_root (root : GameState) :
    node (from_root root) 0 = { root with index := some 0 } := rfl

theorem inv_from_root {root : GameState} (h : root.turn ≠ Player.Empty) :
    Inv (from_root root) := by
  refine ⟨?_, ?_, ?_, ?_, ?_⟩
  · intro j hj
    have hj0 : j = 0 := by
      simp [from_root] at hj
      omega
    subst hj0
    rw [node_from_root]
    exact h
  · intro j h1 hj
    simp [from_root] at hj
    omega
  · intro e he
    simp [from_root] at he
  · intro j h1 hj
    simp [from_root] at hj
    omega
  · intro j k hj hk hjk
    simp [from_root] at hj hk
    omega

/-- C1 (counterexample): contrary to the claim, `Tree::from_root` leaves
the transposition map empty — it does not contain an entry for the root's
canonical board, so the map does not have exactly one entry. -/
theorem from_root_map_not_singleton :
    (from_root rootState).map = [] ∧ (from_root rootState).map.length ≠ 1 := by
  decide

/-- C1 (amended): after `from_root(root)` the arena holds exactly the root
at handle 0, with its stored index set to handle 0 and `root_index = 0`,
and the transposition map is empty (the source constructs it with
`HashMap::new()` and inserts nothing). -/
theorem from_root_spec (root : GameState) :
    (from_root root).nodes = [{ root with index := some 0 }] ∧
    (from_root root).root_index = 0 ∧
    (from_root root).map = [] :=
  ⟨rfl, rfl, rfl⟩

/-- C2 (counterexample): on the empty board with Red to move, `explore(1)`
records seven children on the root but the handles are not mutually
distinct: the transposition map identifies each column with its mirror, so
columns 0 and 6 (and 1/5, 2/4) share a handle and the children list has
duplicates. -/
theorem explore_one_children_not_distinct :
    (node tExp1 0).children.getD 0 none = some 1 ∧
    (node tExp1 0).children.getD 6 none = some 1 ∧
    ¬ (node tExp1 0).children.Nodup := by
  decide

/-- C2 (amended): on the empty 7×6 board with Red to move, `explore(1)`
leaves the root with exactly seven child entries, all `Some` and all
`Ongoing`, but mirror columns share handles: the children are
`[1,2,3,4,3,2,1]`, only four distinct handles, and the arena holds five
states. -/
theorem explore_one_children_spec :
    (node tExp1 0).children =
      [some 1, some 2, some 3, some 4, some 3, some 2, some 1] ∧
    ((node tExp1 1).result = Result.Ongoing ∧
     (node tExp1 2).result = Result.Ongoing ∧
     (node tExp1 3).result = Result.Ongoing ∧
     (node tExp1 4).result = Result.Ongoing) ∧
    tExp1.nodes.length = 5 := by
  decide

/-- C3 (counterexample): not every node of an explored tree has a children
list of length `W`: a depth-frontier node was never expanded and has no
children recorded at all (length 0, not 7). -/
theorem explore_leaf_children_empty :
    (node tExp1 1).children = [] ∧
    (node tExp1 1).children.length ≠ BOARD_W := by
  decide

/-- C3 (amended): after `explore(depth)` on a tree freshly built by
`from_root` from a root with an empty children list and a real active
player, every arena node either was never expanded (children list length 0
— terminal or out of depth budget) or carries exactly `W = 7` entries with
`children[i] = None` iff column `i` is full in that node's board. -/
theorem explore_children_spec (root : GameState) (depth : Nat)
    (hch : root.children = []) (hturn : root.turn ≠ Player.Empty) :
    ∀ j, j < (explore (from_root root) depth).nodes.length →
      (node (explore (from_root root) depth) j).children = [] ∨
      ((node (explore (from_root root) depth) j).children.length = BOARD_W ∧
       ∀ i, i < BOARD_W →
         ((node (explore (from_root root) depth) j).children.getD i none = none ↔
          colFull (node (explore (from_root root) depth) j).board i = true)) := by
  obtain ⟨hInvR, hlenR, hrootR, hframeR, hfieldsR, ⟨ext, hext, hspec⟩, hnewR⟩ :=
    fc_main depth (from_root root) 0 (by simp [from_root]) (inv_from_root hturn)
  have hch0 : (node (from_root root) 0).children = [] := by
    rw [node_from_root]
    exact hch
  have he : explore (from_root root) depth =
      find_children depth (from_root root) 0 := rfl
  intro j hj
  rw [he] at hj ⊢
  by_cases hj0 : j = 0
  · subst hj0
    rcases hspec with hnil | hspec
    · left
      rw [hext, hch0, hnil]
      rfl
    · right
      have hb := hfieldsR.1
      constructor
      · rw [hext, hch0]
        simpa using hspec.1
      · intro i hi
        rw [hext, hch0, hb]
        simp only [List.nil_append]
        have := hspec.2 i hi
        rw [node_from_root] at this ⊢
        exact this
  · have hgood := hnewR j (by simp [from_root]; omega) hj
    unfold goodNode extSpec at hgood
    exact hgood

/-- C3 witness. -/
theorem explore_children_spec_witness :
    (node (explore (from_root rootState) 1) 1).children = [] ∨
    ((node (explore (from_root rootState) 1) 1).children.length = BOARD_W ∧
     ∀ i, i < BOARD_W →
       ((node (explore (from_root rootState) 1) 1).children.getD i none = none ↔
        colFull (node (explore (from_root rootState) 1) 1).board i = true)) :=
  explore_children_spec rootState 1 rfl (by decide) 1 (by decide)

/-- C5: when a generated move's board is already in the transposition map
(canonically), the existing handle is pushed as the child of the current
node and nothing else happens — no arena slot is allocated, the map is
unchanged, and no other node is touched, regardless of the remaining depth
budget `d`. -/
theorem transposition_hit_links_existing (d : Nat) (t : Tree)
    (si x idx : Nat) (ns : GameState)
    (hsi : si < t.nodes.length)
    (hft : (node t si).from_turn x = some ns)
    (hmg : mapGet t.map ns.board = some idx) :
    (expandCol d t si x).nodes.length = t.nodes.length ∧
    (expandCol d t si x).map = t.map ∧
    node (expandCol d t si x) si =
      { node t si with children := (node t si).children ++ [some idx] } ∧
    ∀ j, j ≠ si → node (expandCol d t si x) j = node t j := by
  rw [expandCol_hit d hft hmg]
  exact ⟨length_pushChild t si (some idx), map_pushChild t si (some idx),
    node_pushChild_self (some idx) hsi,
    fun j hne => node_pushChild_ne (some idx) hne⟩

/-- C5 witness: in the partially expanded root of `tPartial`, column 4's
move hits the transposition entry of column 2's child (handle 3); the
arena does not grow. -/
theorem transposition_hit_links_existing_witness :
    (expandCol 9 tPartial 0 4).nodes.length = tPartial.nodes.length :=
  (transposition_hit_links_existing 9 tPartial 0 4 3
    (((node tPartial 0).from_turn 4).getD degenerateState)
    (by decide) (by decide) (by decide)).1

theorem runOps_inv : ∀ (ops : List (Nat × Nat)) (t : Tree), Inv t →
    Inv (runOps t ops)
  | [], _, h => h
  | (d, hd) :: rest, t, h => by
    show Inv (runOps (if hd < t.nodes.length then explore_further t d hd else t) rest)
    by_cases hb : hd < t.nodes.length
    · rw [if_pos hb]
      exact runOps_inv rest _ (fc_main d t hd hb h).1
    · rw [if_neg hb]
      exact runOps_inv rest t h

/-- C6: starting from any root whose active player is a real player, after
`explore(depth)` and any further sequence of `explore_further` calls (no
compaction in between) the arena is duplicate-free: distinct slots hold
canonically distinct boards.  This holds even though `from_root` never
put the root into the transposition map, because every other slot's board
has strictly more pieces than the root's. -/
theorem arena_boards_distinct (root : GameState) (depth : Nat)
    (ops : List (Nat × Nat)) (hturn : root.turn ≠ Player.Empty) :
    ∀ j k, j < (runOps (explore (from_root root) depth) ops).nodes.length →
      k < (runOps (explore (from_root root) depth) ops).nodes.length →
      j ≠ k →
      canonical (node (runOps (explore (from_root root) depth) ops) j).board ≠
      canonical (node (runOps (explore (from_root root) depth) ops) k).board := by
  have h1 : Inv (explore (from_root root) depth) :=
    (fc_main depth (from_root root) 0 (by simp [from_root])
      (inv_from_root hturn)).1
  exact (runOps_inv ops _ h1).2.2.2.2

/-- C6 witness. -/
theorem arena_boards_distinct_witness :
    canonical (node (runOps (explore (from_root rootState) 1) [(1, 1)]) 1).board ≠
    canonical (node (runOps (explore (from_root rootState) 1) [(1, 1)]) 2).board :=
  arena_boards_distinct rootState 1 [(1, 1)] (by decide) 1 2
    (by decide) (by decide) (by decide)

/-! ### Characterizing mask_nodes -/

theorem countKept : ∀ keep : List Bool,
    (List.range keep.length).countP (fun i => keep.getD i false) =
      keep.count true
  | [] => rfl
  | b :: bs => by
    rw [List.length_cons, List.range_succ_eq_map, List.countP_cons,
      List.countP_map]
    have hc : ((fun i => (b :: bs).getD i false) ∘ Nat.succ) =
        (fun i => bs.getD i false) := by
      funext i
      simp
    rw [hc, countKept bs, List.count_cons]
    cases b <;> simp

theorem rank_lt {keep : List Bool} {c n : Nat} (hcn : c < n)
    (hk : keep.getD c false = true) :
    (List.range c).countP (fun i => keep.getD i false) <
      (List.range n).countP (fun i => keep.getD i false) := by
  have h1 : (List.range (c + 1)).countP (fun i => keep.getD i false) =
      (List.range c).countP (fun i => keep.getD i false) + 1 := by
    rw [List.range_succ, List.countP_append]
    have hk' : keep[c]?.getD false = true := by simpa using hk
    have hone : List.countP (fun i => keep.getD i false) [c] = 1 := by
      simp [List.countP_cons, hk']
    omega
  have h2 : (List.range (c + 1)).countP (fun i => keep.getD i false) ≤
      (List.range n).countP (fun i => keep.getD i false) :=
    (List.range_sublist.mpr (by omega)).countP_le _
  omega

theorem foldl_push_filterMap (f : Nat → Option Nat) :
    ∀ (l : List Nat) (acc : List (Option Nat)),
      l.foldl
        (fun cs c =>
          match f c with
          | some nc => cs ++ [some nc]
          | none => cs) acc
      = acc ++ (l.filterMap f).map some
  | [], acc => by simp
  | c :: rest, acc => by
    rw [List.foldl_cons]
    cases hf : f c with
    | none =>
      simp only [hf]
      rw [foldl_push_filterMap f rest acc, List.filterMap_cons, hf]
    | some nc =>
      simp only [hf]
      rw [foldl_push_filterMap f rest (acc ++ [some nc]),
        List.filterMap_cons, hf]
      simp

theorem otn_getD (t : Tree) (keep : List Bool) (c : Nat) :
    ((List.range t.nodes.length).map
      (fun i => if keep.getD i false
        then some ((List.range i).countP (fun j => keep.getD j false))
        else none)).getD c none
    = oldToNew t keep c := by
  by_cases hc : c < t.nodes.length
  · rw [List.getD_eq_getElem _ _ (by simpa using hc), List.getElem_map]
    simp only [List.getElem_range]
    unfold oldToNew
    by_cases hk : keep.getD c false = true
    · rw [if_pos hk, if_pos ⟨hc, hk⟩]
    · rw [if_neg hk, if_neg (by tauto)]
  · rw [List.getD_eq_default _ _ (by simpa using hc)]
    unfold oldToNew
    rw [if_neg (by tauto)]

theorem mask_fold_char (t : Tree) (keep : List Bool) : ∀ n : Nat,
    ((List.range n).foldl
      (fun acc i =>
        let (otn, nns, k) := acc
        if keep.getD i false then (otn ++ [some k], nns ++ [node t i], k + 1)
        else (otn ++ [none], nns, k))
      (([] : List (Option Nat)), ([] : List GameState), 0)) =
    ((List.range n).map
      (fun i => if keep.getD i false
        then some ((List.range i).countP (fun j => keep.getD j false))
        else none),
     ((List.range n).filter (fun i => keep.getD i false)).map (node t),
     (List.range n).countP (fun i => keep.getD i false)) := by
  intro n
  induction n with
  | zero => rfl
  | succ n ih =>
    rw [List.range_succ, List.foldl_append, ih]
    simp only [List.foldl_cons, List.foldl_nil]
    by_cases hk : keep.getD n false = true
    · have hk' : keep[n]?.getD false = true := by simpa using hk
      simp [hk', List.map_append, List.filter_append, List.countP_append,
        List.filter_cons, List.countP_cons]
    · have hk' : ¬ keep[n]?.getD false = true := by simpa using hk
      simp [hk', List.map_append, List.filter_append, List.countP_append,
        List.filter_cons, List.countP_cons]

theorem mask_nodes_eq (t : Tree) (keep : List Bool) :
    mask_nodes t keep =
      { root_index :=
          match oldToNew t keep t.root_index with
          | some r => r
          | none => 0
        nodes :=
          (((keptIdx t keep).map (node t)).zip
            (List.range ((keptIdx t keep).map (node t)).length)).map
            (fun p =>
              { p.1 with
                children :=
                  (p.1.ok_children.filterMap (oldToNew t keep)).map some
                index := some p.2 })
        map := t.map } := by
  unfold mask_nodes keptIdx
  simp only [mask_fold_char t keep]
  simp only [otn_getD t keep]
  simp only [foldl_push_filterMap (oldToNew t keep)]
  simp

theorem length_mask_nodes (t : Tree) (keep : List Bool) :
    (mask_nodes t keep).nodes.length = (keptIdx t keep).length := by
  rw [mask_nodes_eq]
  simp [List.length_zip]

theorem root_mask_nodes (t : Tree) (keep : List Bool) :
    (mask_nodes t keep).root_index =
      match oldToNew t keep t.root_index with
      | some r => r
      | none => 0 := by
  rw [mask_nodes_eq]

theorem keptIdx_length (t : Tree) (keep : List Bool)
    (hlen : keep.length = t.nodes.length) :
    (keptIdx t keep).length = keep.count true := by
  unfold keptIdx
  rw [← hlen, ← List.countP_eq_length_filter, countKept]

theorem getD_map_zip_range {α β : Type _} (f : α × Nat → β) (l : List α)
    (j : Nat) (d : β) (da : α) (hj : j < l.length) :
    ((l.zip (List.range l.length)).map f).getD j d = f (l.getD j da, j) := by
  have hz : (l.zip (List.range l.length))[j]? = some (l.get ⟨j, hj⟩, j) := by
    apply List.getElem?_zip_eq_some.mpr
    refine ⟨List.getElem?_eq_getElem hj, ?_⟩
    show (List.range l.length)[j]? = some j
    rw [List.getElem?_eq_getElem (by simpa using hj)]
    simp
  rw [List.getD_eq_getElem?_getD, List.getElem?_map, hz]
  show f (l.get ⟨j, hj⟩, j) = f (l.getD j da, j)
  rw [List.getD_eq_getElem _ _ hj]
  rfl

theorem node_mask_nodes (t : Tree) (keep : List Bool) {j : Nat}
    (hj : j < (keptIdx t keep).length) :
    node (mask_nodes t keep) j =
      { node t ((keptIdx t keep).getD j 0) with
        children :=
          ((node t ((keptIdx t keep).getD j 0)).ok_children.filterMap
            (oldToNew t keep)).map some
        index := some j } := by
  rw [mask_nodes_eq]
  unfold node
  rw [getD_map_zip_range _ _ _ _ degenerateState (by simpa using hj)]
  have hA : ((keptIdx t keep).map
        (fun i => t.nodes.getD i degenerateState)).getD j degenerateState =
      t.nodes.getD ((keptIdx t keep).getD j 0) degenerateState := by
    rw [List.getD_eq_getElem _ _ (by simpa using hj), List.getElem_map,
      List.getD_eq_getElem _ _ hj]
  rw [hA]

theorem oldToNew_some {t : Tree} {keep : List Bool} {a c : Nat}
    (h : oldToNew t keep a = some c) :
    a < t.nodes.length ∧ keep.getD a false = true ∧
      c = (List.range a).countP (fun i => keep.getD i false) := by
  unfold oldToNew at h
  by_cases hc : a < t.nodes.length ∧ keep.getD a false = true
  · rw [if_pos hc] at h
    simp only [Option.some.injEq] at h
    exact ⟨hc.1, hc.2, h.symm⟩
  · rw [if_neg hc] at h
    exact absurd h (by simp)

theorem keptIdx_mem_lt {t : Tree} {keep : List Bool} {i : Nat}
    (h : i ∈ keptIdx t keep) : i < t.nodes.length := by
  unfold keptIdx at h
  exact List.mem_range.mp (List.mem_of_mem_filter h)

theorem ok_children_of_map_some (l : List Nat) :
    (List.filterMap id (l.map some)) = l := by
  rw [List.filterMap_map]
  simp

/-- C7: `mask_nodes(keep)` is a closed, order-preserving compaction: the
new arena size is the number of `true` bits; the retained boards appear in
kept-slot order; every retained node's stored index equals its new
position; all remapped child handles, and (when the root is kept) the
remapped root handle, point inside the new arena. -/
theorem mask_nodes_compaction_spec (t : Tree) (keep : List Bool)
    (hlen : keep.length = t.nodes.length) :
    (mask_nodes t keep).nodes.length = keep.count true ∧
    ((mask_nodes t keep).nodes.map (fun g => g.board) =
      (keptIdx t keep).map (fun i => (node t i).board)) ∧
    (∀ j, j < (mask_nodes t keep).nodes.length →
      (node (mask_nodes t keep) j).index = some j ∧
      ∀ c ∈ (node (mask_nodes t keep) j).ok_children,
        c < (mask_nodes t keep).nodes.length) ∧
    (keep.getD t.root_index false = true →
      (mask_nodes t keep).root_index < (mask_nodes t keep).nodes.length) := by
  have hml := length_mask_nodes t keep
  have hkl := keptIdx_length t keep hlen
  have hcnt : (keptIdx t keep).length =
      (List.range t.nodes.length).countP (fun i => keep.getD i false) := by
    unfold keptIdx
    rw [← List.countP_eq_length_filter]
  refine ⟨by rw [hml, hkl], ?_, ?_, ?_⟩
  · -- boards in kept order
    apply List.ext_getElem
    · simp [hml]
    · intro j h1 h2
      rw [List.getElem_map, List.getElem_map]
      have hjk : j < (keptIdx t keep).length := by simpa using h2
      have hnj : (mask_nodes t keep).nodes.getD j degenerateState =
          node (mask_nodes t keep) j := rfl
      rw [← List.getD_eq_getElem _ degenerateState, hnj,
        node_mask_nodes t keep hjk]
      show (node t ((keptIdx t keep).getD j 0)).board = _
      rw [List.getD_eq_getElem _ _ hjk]
  · intro j hj
    have hjk : j < (keptIdx t keep).length := by rwa [hml] at hj
    rw [node_mask_nodes t keep hjk]
    constructor
    · rfl
    · intro c hc
      unfold GameState.ok_children at hc
      rw [ok_children_of_map_some] at hc
      obtain ⟨a, ha, hfa⟩ := List.mem_filterMap.mp hc
      obtain ⟨halt, hak, hrank⟩ := oldToNew_some hfa
      rw [hml, hcnt, hrank]
      exact rank_lt halt hak
  · intro hroot
    have hrlt : t.root_index < t.nodes.length := by
      rw [← hlen]
      by_contra hx
      push_neg at hx
      rw [List.getD_eq_default _ _ hx] at hroot
      exact absurd hroot (by simp)
    rw [root_mask_nodes]
    unfold oldToNew
    rw [if_pos ⟨hrlt, hroot⟩, hml, hcnt]
    exact rank_lt hrlt hroot

/-- C7 witness. -/
theorem mask_nodes_compaction_spec_witness :
    (mask_nodes tExp1 [true, false, true, true, false]).nodes.length =
      ([true, false, true, true, false] : List Bool).count true :=
  (mask_nodes_compaction_spec tExp1 [true, false, true, true, false]
    (by decide)).1

/-- C8 (counterexample): with the root unkept and nothing else kept,
`mask_nodes` leaves an empty arena but still sets the root handle to slot
0, which does not exist — a dangling root, not a single-slot sentinel. -/
theorem mask_nodes_root_unkept_dangles :
    (mask_nodes (from_root rootState) [false]).nodes.length = 0 ∧
    (mask_nodes (from_root rootState) [false]).root_index = 0 ∧
    ¬ ((mask_nodes (from_root rootState) [false]).root_index <
       (mask_nodes (from_root rootState) [false]).nodes.length) := by
  decide

/-- C8 (amended): when the keep-mask excludes the root, `mask_nodes` sets
the root handle to 0 and retains exactly the kept slots; no sentinel slot
is created, so the root handle is valid precisely when at least one slot
was kept (it then points at the first kept node), and dangles otherwise. -/
theorem mask_nodes_root_unkept_spec (t : Tree) (keep : List Bool)
    (hlen : keep.length = t.nodes.length)
    (hroot : keep.getD t.root_index false = false) :
    (mask_nodes t keep).root_index = 0 ∧
    (mask_nodes t keep).nodes.length = keep.count true ∧
    ((mask_nodes t keep).root_index < (mask_nodes t keep).nodes.length ↔
      0 < keep.count true) := by
  have hr : (mask_nodes t keep).root_index = 0 := by
    rw [root_mask_nodes]
    unfold oldToNew
    rw [if_neg (by rw [hroot]; simp)]
  have hl : (mask_nodes t keep).nodes.length = keep.count true := by
    rw [length_mask_nodes, keptIdx_length t keep hlen]
  exact ⟨hr, hl, by rw [hr, hl]⟩

/-- C8 witness. -/
theorem mask_nodes_root_unkept_spec_witness :
    (mask_nodes tExp1 [false, true, false, false, false]).root_index = 0 :=
  (mask_nodes_root_unkept_spec tExp1 [false, true, false, false, false]
    (by decide) (by decide)).1

/-- C10: after `mask_nodes` every retained node's children list contains
only `Some` entries — the `None` full-column placeholders are dropped even
when every slot is kept — and its length is the number of kept realized
children, not `W`; child positions no longer encode column numbers. -/
theorem mask_nodes_children_all_some (t : Tree) (keep : List Bool)
    (hclosed : ∀ j, j < t.nodes.length →
      ∀ c ∈ (node t j).ok_children, c < t.nodes.length) :
    ∀ j, j < (mask_nodes t keep).nodes.length →
      (∀ c ∈ (node (mask_nodes t keep) j).children, c ≠ none) ∧
      (node (mask_nodes t keep) j).children.length =
        (node t ((keptIdx t keep).getD j 0)).ok_children.countP
          (fun c => keep.getD c false) := by
  intro j hj
  have hjk : j < (keptIdx t keep).length := by
    rwa [length_mask_nodes] at hj
  rw [node_mask_nodes t keep hjk]
  constructor
  · intro c hc
    show c ≠ none
    simp only [List.mem_map] at hc
    obtain ⟨a, _, ha⟩ := hc
    rw [← ha]
    simp
  · show ((_ : List (Option Nat))).length = _
    rw [List.length_map, List.length_filterMap_eq_countP]
    apply List.countP_congr
    intro a ha
    have hklt : (keptIdx t keep).getD j 0 < t.nodes.length := by
      rw [List.getD_eq_getElem _ _ hjk]
      exact keptIdx_mem_lt (List.getElem_mem hjk)
    have halt : a < t.nodes.length :=
      hclosed ((keptIdx t keep).getD j 0) hklt a ha
    unfold oldToNew
    by_cases hk : keep.getD a false = true
    · rw [if_pos ⟨halt, hk⟩]
      constructor
      · intro _; exact hk
      · intro _; simp
    · rw [if_neg (by tauto)]
      constructor
      · intro h; simp at h
      · intro h; exact absurd h hk

/-- C10 witness (keep all-true: the placeholders are removed even then). -/
theorem mask_nodes_children_all_some_witness :
    (node (mask_nodes tExp1 (List.replicate 5 true)) 0).children.length =
      (node tExp1 ((keptIdx tExp1 (List.replicate 5 true)).getD 0 0)).ok_children.countP
        (fun c => (List.replicate 5 true).getD c false) :=
  (mask_nodes_children_all_some tExp1 (List.replicate 5 true)
    (by decide) 0 (by decide)).2

/-! ### The win-pruner: bottom-up OR over the reachable subgraph -/

theorem getD_set_self {l : List Bool} {i : Nat} {a d : Bool}
    (h : i < l.length) : (l.set i a).getD i d = a := by
  rw [List.getD_eq_getElem?_getD, List.getElem?_set_self h]
  rfl

theorem getD_set_ne {l : List Bool} {i j : Nat} {a d : Bool}
    (h : i ≠ j) : (l.set i a).getD j d = l.getD j d := by
  rw [List.getD_eq_getElem?_getD, List.getElem?_set_ne h,
    ← List.getD_eq_getElem?_getD]

theorem any_congr_mem {α : Type} {p q : α → Bool} :
    ∀ {l : List α}, (∀ a ∈ l, p a = q a) → l.any p = l.any q
  | [], _ => rfl
  | a :: rest, h => by
    rw [List.any_cons, List.any_cons, h a (List.mem_cons_self a rest),
      any_congr_mem (fun x hx => h x (List.mem_cons_of_mem a hx))]

theorem winReachSpec_succ (f : Nat) (t : Tree) (s : Nat) :
    winReachSpec (f + 1) t s =
      (isWin (node t s).result
        || (node t s).ok_children.any (fun c => winReachSpec f t c)) := rfl

theorem reachSpec_succ (f : Nat) (t : Tree) (s v : Nat) :
    reachSpec (f + 1) t s v =
      (decide (s = v)
        || (node t s).ok_children.any (fun c => reachSpec f t c v)) := rfl

theorem prune_to_wins_succ (f : Nat) (t : Tree) (mask : List Bool) (s : Nat) :
    prune_to_wins (f + 1) t mask s =
      match pruneWinsFold f t (node t s).ok_children
          (some (mask, isWin (node t s).result)) with
      | none => none
      | some (m, b) => some (m.set s b, b) := rfl

theorem pruneWinsFold_none (f : Nat) (t : Tree) : ∀ l : List Nat,
    pruneWinsFold f t l none = none
  | [] => rfl
  | _ :: rest => pruneWinsFold_none f t rest

theorem pruneWinsFold_cons (f : Nat) (t : Tree) (c : Nat) (rest : List Nat)
    (m0 : List Bool) (b0 : Bool) :
    pruneWinsFold f t (c :: rest) (some (m0, b0)) =
      match prune_to_wins f t m0 c with
      | none => pruneWinsFold f t rest none
      | some (m2, cb) => pruneWinsFold f t rest (some (m2, b0 || cb)) := by
  cases h : prune_to_wins f t m0 c with
  | none =>
    unfold pruneWinsFold
    rw [List.foldl_cons]
    simp only [h]
  | some p =>
    unfold pruneWinsFold
    rw [List.foldl_cons]
    simp only [h]

theorem pw_fold_spec (f : Nat) (t : Tree)
    (IH : ∀ (mask : List Bool) (s : Nat) (m : List Bool) (b : Bool),
      prune_to_wins f t mask s = some (m, b) →
      m.length = mask.length ∧
      b = winReachSpec f t s ∧
      (∀ v, reachSpec f t s v = true →
        (v < mask.length → m.getD v false = winReachSpec f t v) ∧
        (∀ k, winReachSpec (f + k) t v = winReachSpec f t v)) ∧
      (∀ v, reachSpec f t s v = false →
        m.getD v false = mask.getD v false)) :
    ∀ (l : List Nat) (m0 : List Bool) (b0 : Bool) (m : List Bool) (b : Bool),
      pruneWinsFold f t l (some (m0, b0)) = some (m, b) →
      m.length = m0.length ∧
      b = (b0 || l.any (fun c => winReachSpec f t c)) ∧
      (∀ c ∈ l, ∀ k, winReachSpec (f + k) t c = winReachSpec f t c) ∧
      (∀ v, l.any (fun c => reachSpec f t c v) = true →
        (v < m0.length → m.getD v false = winReachSpec f t v) ∧
        (∀ k, winReachSpec (f + k) t v = winReachSpec f t v)) ∧
      (∀ v, l.any (fun c => reachSpec f t c v) = false →
        m.getD v false = m0.getD v false) := by
  intro l
  induction l with
  | nil =>
    intro m0 b0 m b h
    have h' : m0 = m ∧ b0 = b := by
      have : some (m0, b0) = some (m, b) := h
      simp only [Option.some.injEq, Prod.mk.injEq] at this
      exact this
    obtain ⟨hm, hb⟩ := h'
    subst hm hb
    exact ⟨rfl, by simp, fun c hc => absurd hc (by simp),
      fun v hv => absurd hv (by simp), fun v _ => rfl⟩
  | cons c rest ihl =>
    intro m0 b0 m b h
    rw [pruneWinsFold_cons] at h
    cases hc : prune_to_wins f t m0 c with
    | none =>
      rw [hc, pruneWinsFold_none] at h
      exact Option.noConfusion h
    | some p =>
      obtain ⟨m2, cb⟩ := p
      rw [hc] at h
      have hf1 : 1 ≤ f := by
        cases f with
        | zero => exact Option.noConfusion hc
        | succ f => omega
      obtain ⟨hlen2, hcb, hcv, hcframe⟩ := IH m0 c m2 cb hc
      obtain ⟨hlenR, hbR, hmemR, hvR, hframeR⟩ := ihl m2 (b0 || cb) m b h
      have hreachcc : reachSpec f t c c = true := by
        obtain ⟨f', rfl⟩ : ∃ f', f = f' + 1 := ⟨f - 1, by omega⟩
        rw [reachSpec_succ]
        simp
      refine ⟨hlenR.trans hlen2, ?_, ?_, ?_, ?_⟩
      · rw [hbR, hcb, List.any_cons, Bool.or_assoc]
      · intro c' hc' k
        rcases List.mem_cons.mp hc' with rfl | hmem
        · exact (hcv c' hreachcc).2 k
        · exact hmemR c' hmem k
      · intro v hv
        by_cases hrv : rest.any (fun c' => reachSpec f t c' v) = true
        · refine ⟨fun hvlen => (hvR v hrv).1 (by omega), (hvR v hrv).2⟩
        · have hcv' : reachSpec f t c v = true := by
            by_contra hx
            have hx' : reachSpec f t c v = false := by
              cases hxx : reachSpec f t c v
              · rfl
              · exact absurd hxx hx
            rw [List.any_cons, hx'] at hv
            simp only [Bool.false_or] at hv
            exact absurd hv hrv
          refine ⟨?_, (hcv v hcv').2⟩
          intro hvlen
          rw [hframeR v (by simpa using hrv)]
          exact (hcv v hcv').1 hvlen
      · intro v hv
        rw [List.any_cons] at hv
        have hv1 : reachSpec f t c v = false := by
          cases hx : reachSpec f t c v
          · rfl
          · rw [hx] at hv; simp at hv
        have hv2 : rest.any (fun c' => reachSpec f t c' v) = false := by
          cases hx : rest.any (fun c' => reachSpec f t c' v)
          · rfl
          · rw [hx] at hv; simp at hv
        rw [hframeR v hv2, hcframe v hv1]

theorem pw_main : ∀ (f : Nat) (t : Tree) (mask : List Bool) (s : Nat)
    (m : List Bool) (b : Bool),
    prune_to_wins f t mask s = some (m, b) →
    m.length = mask.length ∧
    b = winReachSpec f t s ∧
    (∀ v, reachSpec f t s v = true →
      (v < mask.length → m.getD v false = winReachSpec f t v) ∧
      (∀ k, winReachSpec (f + k) t v = winReachSpec f t v)) ∧
    (∀ v, reachSpec f t s v = false →
      m.getD v false = mask.getD v false) := by
  intro f
  induction f with
  | zero =>
    intro t mask s m b h
    exact Option.noConfusion h
  | succ f ihf =>
    intro t mask s m b h
    rw [prune_to_wins_succ] at h
    cases hw : pruneWinsFold f t (node t s).ok_children
        (some (mask, isWin (node t s).result)) with
    | none =>
      rw [hw] at h
      exact Option.noConfusion h
    | some p =>
      obtain ⟨m', b'⟩ := p
      rw [hw] at h
      simp only [Option.some.injEq, Prod.mk.injEq] at h
      obtain ⟨hm, hb⟩ := h
      subst hm hb
      obtain ⟨hlenF, hbF, hmemF, hvF, hframeF⟩ :=
        pw_fold_spec f t (ihf t) (node t s).ok_children mask
          (isWin (node t s).result) m' b' hw
      have hwin_succ : winReachSpec (f + 1) t s = b' := by
        rw [winReachSpec_succ, hbF]
      refine ⟨by rw [List.length_set, hlenF], hwin_succ.symm, ?_, ?_⟩
      · intro v hv
        by_cases hveq : s = v
        · subst hveq
          constructor
          · intro hslen
            rw [getD_set_self (by omega), hwin_succ]
          · intro k
            rw [show f + 1 + k = (f + k) + 1 from by omega,
              winReachSpec_succ, winReachSpec_succ]
            have hany : (node t s).ok_children.any
                (fun c => winReachSpec (f + k) t c) =
                (node t s).ok_children.any (fun c => winReachSpec f t c) :=
              any_congr_mem (fun c hc => hmemF c hc k)
            rw [hany]
        · have hvreach : (node t s).ok_children.any
              (fun c => reachSpec f t c v) = true := by
            rw [reachSpec_succ] at hv
            have hd : decide (s = v) = false := by
              simp [hveq]
            rw [hd, Bool.false_or] at hv
            exact hv
          constructor
          · intro hvlen
            rw [getD_set_ne hveq, (hvF v hvreach).1 hvlen]
            exact ((hvF v hvreach).2 1).symm
          · intro k
            have hs1 := (hvF v hvreach).2 1
            have hsk := (hvF v hvreach).2 (1 + k)
            rw [show f + 1 + k = f + (1 + k) from by omega, hsk,
              ← hs1]
      · intro v hv
        rw [reachSpec_succ] at hv
        have hvne : s ≠ v := by
          intro hx
          subst hx
          simp at hv
        have hvany : (node t s).ok_children.any
            (fun c => reachSpec f t c v) = false := by
          cases hx : (node t s).ok_children.any (fun c => reachSpec f t c v)
          · rfl
          · rw [hx] at hv
            simp at hv
        rw [getD_set_ne hvne, hframeF v hvany]

theorem winReach_exists : ∀ (f : Nat) (t : Tree) (v : Nat),
    winReachSpec f t v = true →
    ∃ w, reachSpec f t v w = true ∧ isWin (node t w).result = true := by
  intro f
  induction f with
  | zero =>
    intro t v h
    exact absurd h (by simp [winReachSpec])
  | succ f ihf =>
    intro t v h
    rw [winReachSpec_succ] at h
    by_cases hself : isWin (node t v).result = true
    · refine ⟨v, ?_, hself⟩
      rw [reachSpec_succ]
      simp
    · have hany : (node t v).ok_children.any
          (fun c => winReachSpec f t c) = true := by
        have hw : isWin (node t v).result = false := by
          cases hx : isWin (node t v).result
          · rfl
          · exact absurd hx hself
        rw [hw, Bool.false_or] at h
        exact h
      obtain ⟨c, hcmem, hcw⟩ := List.any_eq_true.mp hany
      obtain ⟨w, hrw, hwin⟩ := ihf t c hcw
      refine ⟨w, ?_, hwin⟩
      rw [reachSpec_succ]
      have : (node t v).ok_children.any (fun c' => reachSpec f t c' w) = true :=
        List.any_eq_true.mpr ⟨c, hcmem, hrw⟩
      rw [this]
      simp

/-- C9: whenever a `prune_to_wins` run completes (the fuel models the
Rust recursion, which terminates on every explored tree), the resulting
keep bit of every node reachable from the start equals `winReachSpec`,
the logical OR over its reachable subgraph of "this node's result is a
win"; consequently a node none of whose reachable descendants (itself
included) has a `Win` result is never marked keep=true. -/
theorem prune_to_wins_spec (f : Nat) (t : Tree) (mask : List Bool) (s : Nat)
    (m : List Bool) (b : Bool)
    (h : prune_to_wins f t mask s = some (m, b)) :
    (∀ v, reachSpec f t s v = true → v < mask.length →
      m.getD v false = winReachSpec f t v) ∧
    (∀ v, reachSpec f t s v = true → v < mask.length →
      (∀ w, reachSpec f t v w = true → isWin (node t w).result = false) →
      m.getD v false = false) := by
  obtain ⟨_, _, hv, _⟩ := pw_main f t mask s m b h
  refine ⟨fun v hr hlt => (hv v hr).1 hlt, ?_⟩
  intro v hr hlt hall
  rw [(hv v hr).1 hlt]
  cases hww : winReachSpec f t v with
  | false => rfl
  | true =>
    obtain ⟨w, hrw, hwin⟩ := winReach_exists f t v hww
    rw [hall w hrw] at hwin
    exact absurd hwin (by simp)

/-- C9 witness: in the explore(1) tree no reachable state is a win, and
the completed run marks slot 1 false. -/
theorem prune_to_wins_spec_witness :
    ([false, false, false, false, false] : List Bool).getD 1 false =
      winReachSpec 6 tExp1 1 :=
  (prune_to_wins_spec 6 tExp1 (List.replicate 5 false) 0
    [false, false, false, false, false] false (by decide)).1 1
    (by decide) (by decide)

/-! ### The target-pruner's fast-reject check -/

theorem isStart_length_le : ∀ {a b : List Player},
    isStart a b = true → a.length ≤ b.length
  | [], _, _ => by simp
  | _ :: _, [], h => by simp [isStart] at h
  | _ :: as₀, _ :: bs₀, h => by
    unfold isStart at h
    simp only [Bool.and_eq_true, decide_eq_true_eq] at h
    have := isStart_length_le h.2
    simp only [List.length_cons]
    omega

theorem isStart_eq_of_length : ∀ {a b : List Player},
    isStart a b = true → a.length = b.length → a = b
  | [], [], _, _ => rfl
  | [], _ :: _, _, hl => by simp at hl
  | _ :: _, [], h, _ => by simp [isStart] at h
  | _ :: as₀, _ :: bs₀, h, hl => by
    unfold isStart at h
    simp only [Bool.and_eq_true, decide_eq_true_eq] at h
    have hll : as₀.length = bs₀.length := by simpa using hl
    rw [h.1, isStart_eq_of_length h.2 hll]

theorem fastReject_eq_false {b target : Grid}
    (h : ∀ p ∈ b.zip target, isStart (colPieces p.1) (colPieces p.2) = true) :
    fastReject b target = false := by
  unfold fastReject
  rw [List.any_eq_false]
  intro p hp
  have hs := h p hp
  have hle := isStart_length_le hs
  simp only [Bool.or_eq_true, Bool.and_eq_true, decide_eq_true_eq, not_or,
    not_and]
  constructor
  · omega
  · intro hlen
    have := isStart_eq_of_length hs hlen
    simp [this]

theorem prune_to_target_succ (f : Nat) (t : Tree) (mask : List Bool)
    (s : Nat) (target : Grid) :
    prune_to_target (f + 1) t mask s target =
      if fastReject (node t s).board target then
        some (mask.set s false, false)
      else
        match pruneTargetFold f t target (node t s).ok_children
            (some (mask,
              decide (canonical (node t s).board = canonical target))) with
        | none => none
        | some (m, r) => some (m.set s r, r) := rfl

theorem pruneTargetFold_none (f : Nat) (t : Tree) (target : Grid) :
    ∀ l : List Nat, pruneTargetFold f t target l none = none
  | [] => rfl
  | _ :: rest => pruneTargetFold_none f t target rest

theorem pruneTargetFold_cons (f : Nat) (t : Tree) (target : Grid) (c : Nat)
    (rest : List Nat) (m0 : List Bool) (b0 : Bool) :
    pruneTargetFold f t target (c :: rest) (some (m0, b0)) =
      match prune_to_target f t m0 c target with
      | none => pruneTargetFold f t target rest none
      | some (m2, cb) => pruneTargetFold f t target rest (some (m2, b0 || cb)) := by
  cases h : prune_to_target f t m0 c target with
  | none =>
    unfold pruneTargetFold
    rw [List.foldl_cons]
    simp only [h]
  | some p =>
    unfold pruneTargetFold
    rw [List.foldl_cons]
    simp only [h]

theorem ptFold_length (f : Nat) (t : Tree) (target : Grid)
    (IH : ∀ (mask : List Bool) (s : Nat) (m : List Bool) (r : Bool),
      prune_to_target f t mask s target = some (m, r) →
      m.length = mask.length) :
    ∀ (l : List Nat) (m0 : List Bool) (b0 : Bool) (m : List Bool) (r : Bool),
      pruneTargetFold f t target l (some (m0, b0)) = some (m, r) →
      m.length = m0.length := by
  intro l
  induction l with
  | nil =>
    intro m0 b0 m r h
    have h' : some (m0, b0) = some (m, r) := h
    simp only [Option.some.injEq, Prod.mk.injEq] at h'
    rw [← h'.1]
  | cons c rest ihl =>
    intro m0 b0 m r h
    rw [pruneTargetFold_cons] at h
    cases hc : prune_to_target f t m0 c target with
    | none =>
      rw [hc, pruneTargetFold_none] at h
      exact Option.noConfusion h
    | some p =>
      obtain ⟨m2, cb⟩ := p
      rw [hc] at h
      exact (ihl m2 (b0 || cb) m r h).trans (IH m0 c m2 cb hc)

theorem pt_length : ∀ (f : Nat) (t : Tree) (mask : List Bool) (s : Nat)
    (target : Grid) (m : List Bool) (r : Bool),
    prune_to_target f t mask s target = some (m, r) →
    m.length = mask.length := by
  intro f
  induction f with
  | zero =>
    intro t mask s target m r h
    exact Option.noConfusion h
  | succ f ihf =>
    intro t mask s target m r h
    rw [prune_to_target_succ] at h
    by_cases hfr : fastReject (node t s).board target = true
    · rw [if_pos hfr] at h
      simp only [Option.some.injEq, Prod.mk.injEq] at h
      rw [← h.1, List.length_set]
    · rw [if_neg hfr] at h
      cases hw : pruneTargetFold f t target (node t s).ok_children
          (some (mask, decide (canonical (node t s).board = canonical target))) with
      | none =>
        rw [hw] at h
        exact Option.noConfusion h
      | some p =>
        obtain ⟨m', r'⟩ := p
        rw [hw] at h
        simp only [Option.some.injEq, Prod.mk.injEq] at h
        rw [← h.1, List.length_set]
        exact ptFold_length f t target (fun mask s m r => ihf t mask s target m r)
          (node t s).ok_children mask _ m' r' hw

theorem ptFold_true (f : Nat) (t : Tree) (target : Grid) :
    ∀ (l : List Nat) (m0 : List Bool) (m : List Bool) (r : Bool),
      pruneTargetFold f t target l (some (m0, true)) = some (m, r) →
      r = true := by
  intro l
  induction l with
  | nil =>
    intro m0 m r h
    have h' : some (m0, true) = some (m, r) := h
    simp only [Option.some.injEq, Prod.mk.injEq] at h'
    exact h'.2.symm
  | cons c rest ihl =>
    intro m0 m r h
    rw [pruneTargetFold_cons] at h
    cases hc : prune_to_target f t m0 c target with
    | none =>
      rw [hc, pruneTargetFold_none] at h
      exact Option.noConfusion h
    | some p =>
      obtain ⟨m2, cb⟩ := p
      rw [hc] at h
      have h' : pruneTargetFold f t target rest (some (m2, true || cb)) =
          some (m, r) := h
      rw [Bool.true_or] at h'
      exact ihl m2 m r h'

/-- C4 (counterexample): the fast-reject path does produce false negatives
for canonically reachable targets.  In the explore(1) tree, slot 1 stores
the board with a red piece in column 0; the target `mirrorTarget` is its
mirror (red in column 6), so slot 1's own board is canonically equal to
the target — the target is reachable in slot 1's subgraph.  Yet the
column-wise fast check compares the stored orientation against the
target's orientation, fires (column 0 has more pieces than the target's
column 0), and the prune from the root leaves every keep bit false,
including slot 1's. -/
theorem prune_to_target_false_negative :
    canonical (node tExp1 1).board = canonical mirrorTarget ∧
    reachSpec 1 tExp1 1 1 = true ∧
    fastReject (node tExp1 1).board mirrorTarget = true ∧
    prune_to_target 6 tExp1 (List.replicate 5 false) 0 mirrorTarget =
      some ([false, false, false, false, false], false) := by
  decide

/-- C4 (amended): the fast-reject check never misfires in the orientation
it actually tests: when every column of the node's board is an initial
segment of the target's same column, `fastReject` is false, and if the
node's board is moreover canonically equal to the target, a completed
`prune_to_target` run marks that node keep=true. -/
theorem fast_reject_extension_sound (b target : Grid)
    (h : ∀ p ∈ b.zip target, isStart (colPieces p.1) (colPieces p.2) = true) :
    fastReject b target = false ∧
    (∀ (f : Nat) (t : Tree) (mask : List Bool) (s : Nat)
        (m : List Bool) (r : Bool),
      (node t s).board = b → s < mask.length →
      prune_to_target (f + 1) t mask s target = some (m, r) →
      canonical b = canonical target →
      r = true ∧ m.getD s false = true) := by
  have h1 := fastReject_eq_false h
  refine ⟨h1, ?_⟩
  intro f t mask s m r hb hs hp hc
  have hfr : fastReject (node t s).board target = false := by
    rw [hb]
    exact h1
  rw [prune_to_target_succ, if_neg (by simp [hfr])] at hp
  have hthis : decide (canonical (node t s).board = canonical target) = true := by
    rw [hb]
    exact decide_eq_true hc
  rw [hthis] at hp
  cases hw : pruneTargetFold f t target (node t s).ok_children
      (some (mask, true)) with
  | none =>
    rw [hw] at hp
    exact Option.noConfusion hp
  | some p =>
    obtain ⟨m', r'⟩ := p
    rw [hw] at hp
    simp only [Option.some.injEq, Prod.mk.injEq] at hp
    have hrt : r' = true :=
      ptFold_true f t target (node t s).ok_children mask m' r' hw
    have hlen : m'.length = mask.length :=
      ptFold_length f t target (fun mask s m r => pt_length f t mask s target m r)
        (node t s).ok_children mask true m' r' hw
    refine ⟨by rw [← hp.2, hrt], ?_⟩
    rw [← hp.1, hrt, getD_set_self (by omega)]

/-- C4 witness: the empty root board extends column-wise to the mirrored
target, and the fast check indeed lets it through. -/
theorem fast_reject_extension_sound_witness :
    fastReject (node tExp1 0).board mirrorTarget = false :=
  (fast_reject_extension_sound (node tExp1 0).board mirrorTarget
    (by decide)).1

end Connect4
